import Mathlib

/-! Frame codec of `pkg/packet/packet.go`.

A shallow embedding of `Encode` and `Decode` together with the pieces of the
Go standard library they call (`bytes.Buffer`, `bytes.Reader`, `io.ReadFull`,
`encoding/binary` in big-endian order, `hash/crc32`).

* a Go `byte` is a `Fin 256`; a `[]byte` is a `List Byte`, the list of its
  elements; where the claim is about what `Encode` depends on, the payload is
  a slice value (`Slice`) with its backing array, offset, length and capacity;
* `uint16` and `uint32` values are natural numbers, reduced `% 2 ^ w` at every
  narrowing conversion;
* a Go result pair `(value, error)` is a pair of options, `none` standing for
  `nil`;
* a run-time panic (slice bounds out of range) is the `Run.panic` outcome.
-/

namespace packet

/-- A Go `byte`. -/
abbrev Byte := Fin 256

/-- The conversion `byte(x)` of an unsigned integer: the low eight bits. -/
def byte (x : Nat) : Byte := Fin.ofNat x

/-- Go error values that the codec can return: the two end-of-input errors of
package `io`, and an error made by `errors.New`. -/
inductive Error where
  | EOF : Error
  | ErrUnexpectedEOF : Error
  | New (text : String) : Error
  deriving DecidableEq, Repr

/-- The record `DataPacket` (packet.go, lines 10-14). The field `Type` is
spelled `Type_`, the source's name being reserved. -/
structure DataPacket where
  Version : Byte
  Type_ : Byte
  Payload : List Byte
  deriving DecidableEq, Repr

/-- Outcome of running a Go function body: it returns a value or it panics. -/
inductive Run (α : Type) where
  | ret (a : α) : Run α
  | panic : Run α
  deriving DecidableEq, Repr

/-! ## hash/crc32 -/

/-- The reflected IEEE polynomial, `crc32.IEEE`. -/
def IEEE : Nat := 0xedb88320

/-- One turn of the inner loop of `simpleMakeTable`:
`if crc&1 == 1 { crc = (crc >> 1) ^ poly } else { crc >>= 1 }`. -/
def tableStep (poly crc : Nat) : Nat :=
  if crc &&& 1 = 1 then (crc >>> 1) ^^^ poly else crc >>> 1

/-- Modelled from the spec: entry `i` of the table built by `simpleMakeTable`
of Go's `hash/crc32` (standard library, not part of the repository), for the
"standard reversed polynomial 0xEDB88320 variant" of CRC-32 named in section
4.1: eight turns of `tableStep` starting from `uint32(i)`. -/
def simpleMakeTable (poly : Nat) (i : Nat) : Nat :=
  (tableStep poly)^[8] i

/-- One turn of the loop of `simpleUpdate`:
`crc = tab[byte(crc)^v] ^ (crc >> 8)`. -/
def updateStep (tab : Nat → Nat) (crc : Nat) (v : Byte) : Nat :=
  tab ((crc % 256) ^^^ v.val) ^^^ (crc >>> 8)

/-- Modelled from the spec: `simpleUpdate` of Go's `hash/crc32` (standard
library, not part of the repository), the byte-at-a-time CRC-32 of section
4.1: complement the running value, fold the bytes in, complement again. The
complement `^crc` of a `uint32` is the exclusive or with `0xffffffff`. -/
def simpleUpdate (crc : Nat) (tab : Nat → Nat) (p : List Byte) : Nat :=
  (p.foldl (updateStep tab) (crc ^^^ 0xffffffff)) ^^^ 0xffffffff

/-- Modelled from the spec: `crc32.ChecksumIEEE` of Go's standard library (not
part of the repository): the CRC-32 of `data` with the IEEE polynomial,
starting from the running value 0. -/
def ChecksumIEEE (data : List Byte) : Nat :=
  simpleUpdate 0 (simpleMakeTable IEEE) data

/-! ## bytes.Buffer and binary.Write -/

/-- The method `(*bytes.Buffer).Write`: appends `p` to the buffer; the returned
error is always `nil`. Running out of memory is not modelled. -/
def Buffer.Write (buf p : List Byte) : List Byte × Option Error :=
  (buf ++ p, none)

/-- The call `binary.BigEndian.PutUint16`: `b[0] = byte(v >> 8)`,
`b[1] = byte(v)`. -/
def PutUint16 (v : Nat) : List Byte :=
  [byte (v >>> 8), byte v]

/-- The call `binary.BigEndian.PutUint32`: `b[0] = byte(v >> 24)`,
`b[1] = byte(v >> 16)`, `b[2] = byte(v >> 8)`, `b[3] = byte(v)`. -/
def PutUint32 (v : Nat) : List Byte :=
  [byte (v >>> 24), byte (v >>> 16), byte (v >>> 8), byte v]

/-- The call `binary.Write(buf, binary.BigEndian, v)` for a `byte` value. -/
def WriteUint8 (buf : List Byte) (v : Byte) : List Byte × Option Error :=
  Buffer.Write buf [v]

/-- The call `binary.Write(buf, binary.BigEndian, v)` for a `uint16` value. -/
def WriteUint16 (buf : List Byte) (v : Nat) : List Byte × Option Error :=
  Buffer.Write buf (PutUint16 v)

/-- The call `binary.Write(buf, binary.BigEndian, v)` for a `uint32` value. -/
def WriteUint32 (buf : List Byte) (v : Nat) : List Byte × Option Error :=
  Buffer.Write buf (PutUint32 v)

/-- The function `Encode` (packet.go, lines 16-41). The conversion
`uint16(len(packet.Payload))` keeps the length modulo `2 ^ 16`. -/
def Encode (packet : DataPacket) : Option (List Byte) × Option Error :=
  match WriteUint8 [] packet.Version with
  | (_, some err) => (none, some err)
  | (buf, none) =>
  match WriteUint8 buf packet.Type_ with
  | (_, some err) => (none, some err)
  | (buf, none) =>
  match WriteUint16 buf (packet.Payload.length % 2 ^ 16) with
  | (_, some err) => (none, some err)
  | (buf, none) =>
  match Buffer.Write buf packet.Payload with
  | (_, some err) => (none, some err)
  | (buf, none) =>
  let checksum := ChecksumIEEE buf
  match WriteUint32 buf checksum with
  | (_, some err) => (none, some err)
  | (buf, none) => (some buf, none)

/-- The test helper `prepareEncodedData` (packet_test.go, lines 75-86); it
drops the error results of its writes. -/
def prepareEncodedData (version msgType : Byte) (payload : List Byte) : List Byte :=
  let buf := (WriteUint8 [] version).1
  let buf := (WriteUint8 buf msgType).1
  let buf := (WriteUint16 buf (payload.length % 2 ^ 16)).1
  let buf := (Buffer.Write buf payload).1
  let checksum := ChecksumIEEE buf
  (WriteUint32 buf checksum).1

/-! ## bytes.Reader, io.ReadFull and binary.Read -/

/-- The call `io.ReadFull(r, bs)` on a `bytes.Reader` holding the unread bytes
`r`, with `len(bs) = n`: nothing is read when `n = 0`; `io.EOF` when no byte is
left; `io.ErrUnexpectedEOF` when some but fewer than `n` bytes are left;
otherwise the next `n` bytes and the reader past them. -/
def ReadFull (r : List Byte) (n : Nat) : Except Error (List Byte × List Byte) :=
  if n = 0 then .ok ([], r)
  else if r.length = 0 then .error Error.EOF
  else if r.length < n then .error Error.ErrUnexpectedEOF
  else .ok (r.take n, r.drop n)

/-- The call `binary.BigEndian.Uint16`: `uint16(b[1]) | uint16(b[0])<<8`. -/
def Uint16 (b : List Byte) : Nat :=
  (b.getD 1 0).val ||| ((b.getD 0 0).val <<< 8)

/-- The call `binary.BigEndian.Uint32`:
`uint32(b[3]) | uint32(b[2])<<8 | uint32(b[1])<<16 | uint32(b[0])<<24`. -/
def Uint32 (b : List Byte) : Nat :=
  (b.getD 3 0).val ||| ((b.getD 2 0).val <<< 8) ||| ((b.getD 1 0).val <<< 16)
    ||| ((b.getD 0 0).val <<< 24)

/-- The call `binary.Read(buf, binary.BigEndian, &x)` for `x` a `byte`. -/
def ReadUint8 (r : List Byte) : Except Error (Byte × List Byte) :=
  match ReadFull r 1 with
  | .error err => .error err
  | .ok (bs, r) => .ok (bs.getD 0 0, r)

/-- The call `binary.Read(buf, binary.BigEndian, &x)` for `x` a `uint16`. -/
def ReadUint16 (r : List Byte) : Except Error (Nat × List Byte) :=
  match ReadFull r 2 with
  | .error err => .error err
  | .ok (bs, r) => .ok (Uint16 bs, r)

/-- The call `binary.Read(buf, binary.BigEndian, &x)` for `x` a `uint32`. -/
def ReadUint32 (r : List Byte) : Except Error (Nat × List Byte) :=
  match ReadFull r 4 with
  | .error err => .error err
  | .ok (bs, r) => .ok (Uint32 bs, r)

/-- The call `binary.Read(buf, binary.BigEndian, &s)` for `s` a byte slice of
length `n`: fills the whole slice or fails. -/
def ReadBytes (r : List Byte) (n : Nat) : Except Error (List Byte × List Byte) :=
  ReadFull r n

/-- The slice expression `data[:k]`: a run-time panic when `k` is negative or
exceeds the capacity of `data`. The capacity is taken to be the length, the
least it can be, so the model panics at least as often as the program. -/
def sliceTo (data : List Byte) (k : Int) : Run (List Byte) :=
  if 0 ≤ k ∧ k ≤ (data.length : Int) then .ret (data.take k.toNat) else .panic

/-- The function `Decode` (packet.go, lines 43-77). -/
def Decode (data : List Byte) : Run (Option DataPacket × Option Error) :=
  match ReadUint8 data with
  | .error err => .ret (none, some err)
  | .ok (version, buf) =>
  match ReadUint8 buf with
  | .error err => .ret (none, some err)
  | .ok (type_, buf) =>
  match ReadUint16 buf with
  | .error err => .ret (none, some err)
  | .ok (length, buf) =>
  match ReadBytes buf length with
  | .error err => .ret (none, some err)
  | .ok (payload, buf) =>
  match ReadUint32 buf with
  | .error err => .ret (none, some err)
  | .ok (receivedChecksum, _) =>
  match sliceTo data ((data.length : Int) - 4) with
  | .panic => .panic
  | .ret covered =>
  let calculatedChecksum := ChecksumIEEE covered
  if receivedChecksum ≠ calculatedChecksum then
    .ret (none, some (Error.New "checksum mismatch"))
  else
    .ret (some ⟨version, type_, payload⟩, none)

/-- An end-of-input error: `io.EOF` or `io.ErrUnexpectedEOF`. -/
def Error.isEndOfInput : Error → Bool
  | .EOF => true
  | .ErrUnexpectedEOF => true
  | .New _ => false


/-! ## Vocabulary of the claims -/

/-- The payload length that `Decode` reads from bytes 2 and 3 of its input,
`256 * data[2] + data[3]` (a missing byte counts as 0). -/
def declaredLength (data : List Byte) : Nat :=
  256 * (data.getD 2 0).val + (data.getD 3 0).val

/-- The byte sequence `data` with bit `k` of the byte at index `i` inverted. -/
def flipBit (data : List Byte) (i k : Nat) : List Byte :=
  data.set i (byte ((data.getD i 0).val ^^^ 2 ^ k))

/-! ## Slice values

`Encode` receives its payload as a Go slice value, which carries more than the
bytes it shows: a backing array, a position in it and a capacity. The
definitions below embed `Encode` at that level, to state what its output does
and does not depend on. -/

/-- A Go slice value of type `[]byte`: its backing array, the index of its
element 0 in that array, its length and its capacity. The `nil` slice has an
empty backing array, length 0 and capacity 0. -/
structure Slice where
  array : List Byte
  offset : Nat
  len : Nat
  cap : Nat
  deriving DecidableEq, Repr

/-- The invariant of every Go slice value: `len(s) <= cap(s)`, and the capacity
stays inside the backing array. -/
abbrev Slice.WellFormed (s : Slice) : Prop :=
  s.len ≤ s.cap ∧ s.offset + s.cap ≤ s.array.length

/-- The elements `s[0], ..., s[len(s)-1]` of a slice: the bytes that
`bytes.Equal` compares and that `(*bytes.Buffer).Write` copies. -/
def Slice.elems (s : Slice) : List Byte :=
  (s.array.drop s.offset).take s.len

/-- The record `DataPacket` (packet.go, lines 10-14) as the value that is
passed to `Encode`: two bytes and a slice value. -/
structure RawDataPacket where
  Version : Byte
  Type_ : Byte
  Payload : Slice
  deriving DecidableEq, Repr

/-- The function `Encode` (packet.go, lines 16-41) on a `DataPacket` value
whose payload is a slice value: `len(packet.Payload)` reads the length of the
slice, `buf.Write(packet.Payload)` appends its elements. -/
def EncodeRaw (packet : RawDataPacket) : Option (List Byte) × Option Error :=
  match WriteUint8 [] packet.Version with
  | (_, some err) => (none, some err)
  | (buf, none) =>
  match WriteUint8 buf packet.Type_ with
  | (_, some err) => (none, some err)
  | (buf, none) =>
  match WriteUint16 buf (packet.Payload.len % 2 ^ 16) with
  | (_, some err) => (none, some err)
  | (buf, none) =>
  match Buffer.Write buf packet.Payload.elems with
  | (_, some err) => (none, some err)
  | (buf, none) =>
  let checksum := ChecksumIEEE buf
  match WriteUint32 buf checksum with
  | (_, some err) => (none, some err)
  | (buf, none) => (some buf, none)

/-! ## Big-endian integers -/

theorem byte_val (x : Nat) : (byte x).val = x % 256 := rfl

theorem or_shiftLeft (i a b : Nat) (hb : b < 2 ^ i) : b ||| (a <<< i) = a * 2 ^ i + b := by
  rw [Nat.shiftLeft_eq, Nat.or_comm, Nat.mul_comm a, ← Nat.mul_add_lt_is_or hb]

theorem Uint16_eq (a b : Byte) : Uint16 [a, b] = a.val * 256 + b.val := by
  have hb : b.val < 2 ^ 8 := b.isLt
  simp only [Uint16, List.getD_cons_zero, List.getD_cons_succ]
  rw [or_shiftLeft 8 _ _ hb]
  omega

theorem Uint32_eq (a b c d : Byte) :
    Uint32 [a, b, c, d] = a.val * 2 ^ 24 + b.val * 2 ^ 16 + c.val * 2 ^ 8 + d.val := by
  have ha : a.val < 2 ^ 8 := a.isLt
  have hb : b.val < 2 ^ 8 := b.isLt
  have hc : c.val < 2 ^ 8 := c.isLt
  have hd : d.val < 2 ^ 8 := d.isLt
  simp only [Uint32, List.getD_cons_zero, List.getD_cons_succ]
  rw [or_shiftLeft 8 _ _ hd, or_shiftLeft 16 _ _ (by omega), or_shiftLeft 24 _ _ (by omega)]
  omega

theorem Uint16_lt (a b : Byte) : Uint16 [a, b] < 2 ^ 16 := by
  rw [Uint16_eq]; have := a.isLt; have := b.isLt; omega

theorem Uint16_PutUint16 (v : Nat) (hv : v < 2 ^ 16) : Uint16 (PutUint16 v) = v := by
  simp only [PutUint16, Uint16_eq, byte_val, Nat.shiftRight_eq_div_pow]
  omega

theorem Uint32_PutUint32 (v : Nat) (hv : v < 2 ^ 32) : Uint32 (PutUint32 v) = v := by
  simp only [PutUint32, Uint32_eq, byte_val, Nat.shiftRight_eq_div_pow]
  omega

theorem PutUint32_Uint32 (a b c d : Byte) : PutUint32 (Uint32 [a, b, c, d]) = [a, b, c, d] := by
  have ha : a.val < 2 ^ 8 := a.isLt
  have hb : b.val < 2 ^ 8 := b.isLt
  have hc : c.val < 2 ^ 8 := c.isLt
  have hd : d.val < 2 ^ 8 := d.isLt
  simp only [PutUint32, Uint32_eq, Nat.shiftRight_eq_div_pow]
  have e1 : byte ((a.val * 2 ^ 24 + b.val * 2 ^ 16 + c.val * 2 ^ 8 + d.val) / 2 ^ 24) = a := by
    apply Fin.ext; rw [byte_val]; omega
  have e2 : byte ((a.val * 2 ^ 24 + b.val * 2 ^ 16 + c.val * 2 ^ 8 + d.val) / 2 ^ 16) = b := by
    apply Fin.ext; rw [byte_val]; omega
  have e3 : byte ((a.val * 2 ^ 24 + b.val * 2 ^ 16 + c.val * 2 ^ 8 + d.val) / 2 ^ 8) = c := by
    apply Fin.ext; rw [byte_val]; omega
  have e4 : byte (a.val * 2 ^ 24 + b.val * 2 ^ 16 + c.val * 2 ^ 8 + d.val) = d := by
    apply Fin.ext; rw [byte_val]; omega
  rw [e1, e2, e3, e4]

/-! ## The checksum fits in 32 bits -/

theorem tableStep_lt (poly crc : Nat) (hp : poly < 2 ^ 32) (hc : crc < 2 ^ 32) :
    tableStep poly crc < 2 ^ 32 := by
  have h1 : crc >>> 1 < 2 ^ 32 := by
    rw [Nat.shiftRight_eq_div_pow]; omega
  unfold tableStep
  split
  · exact Nat.xor_lt_two_pow h1 hp
  · exact h1

theorem tableStep_iterate_lt (poly : Nat) (hp : poly < 2 ^ 32) (k crc : Nat)
    (hc : crc < 2 ^ 32) : (tableStep poly)^[k] crc < 2 ^ 32 := by
  induction k generalizing crc with
  | zero => simpa using hc
  | succ k ih =>
    rw [Function.iterate_succ_apply]
    exact ih _ (tableStep_lt poly crc hp hc)

theorem simpleMakeTable_lt (i : Nat) (hi : i < 256) : simpleMakeTable IEEE i < 2 ^ 32 :=
  tableStep_iterate_lt IEEE (by decide) 8 i (by omega)

theorem updateStep_lt (crc : Nat) (v : Byte) (hc : crc < 2 ^ 32) :
    updateStep (simpleMakeTable IEEE) crc v < 2 ^ 32 := by
  unfold updateStep
  have h1 : crc % 256 < 2 ^ 8 := by omega
  have h2 : v.val < 2 ^ 8 := v.isLt
  have h3 : (crc % 256) ^^^ v.val < 256 := Nat.xor_lt_two_pow h1 h2
  have h4 : crc >>> 8 < 2 ^ 32 := by
    rw [Nat.shiftRight_eq_div_pow]; omega
  exact Nat.xor_lt_two_pow (simpleMakeTable_lt _ h3) h4

theorem foldl_updateStep_lt (p : List Byte) (crc : Nat) (hc : crc < 2 ^ 32) :
    p.foldl (updateStep (simpleMakeTable IEEE)) crc < 2 ^ 32 := by
  induction p generalizing crc with
  | nil => simpa using hc
  | cons v p ih => exact ih _ (updateStep_lt crc v hc)

theorem ChecksumIEEE_lt (data : List Byte) : ChecksumIEEE data < 2 ^ 32 := by
  unfold ChecksumIEEE simpleUpdate
  exact Nat.xor_lt_two_pow (foldl_updateStep_lt data _ (by decide)) (by decide)

/-! ## What `Encode` writes -/

theorem Encode_eq (p : DataPacket) :
    Encode p =
      (some ((p.Version :: p.Type_ :: (PutUint16 (p.Payload.length % 2 ^ 16) ++ p.Payload)) ++
        PutUint32 (ChecksumIEEE
          (p.Version :: p.Type_ :: (PutUint16 (p.Payload.length % 2 ^ 16) ++ p.Payload)))),
       none) := by
  simp [Encode, WriteUint8, WriteUint16, WriteUint32, Buffer.Write]

/-! ## What `Decode` reads -/

theorem ReadFull_error_isEndOfInput (r : List Byte) (n : Nat) (e : Error)
    (h : ReadFull r n = .error e) : e.isEndOfInput = true := by
  unfold ReadFull at h
  split_ifs at h <;> cases h <;> rfl

theorem ReadFull_of_le (r : List Byte) (n : Nat) (h : n ≤ r.length) :
    ReadFull r n = .ok (r.take n, r.drop n) := by
  unfold ReadFull
  by_cases h0 : n = 0
  · subst h0; simp
  · have h1 : r.length ≠ 0 := by omega
    have h2 : ¬ r.length < n := by omega
    simp [h0, h1, h2]

theorem ReadFull_of_lt (r : List Byte) (n : Nat) (h : r.length < n) :
    ∃ e, ReadFull r n = .error e ∧ e.isEndOfInput = true := by
  unfold ReadFull
  have h0 : n ≠ 0 := by omega
  by_cases h1 : r.length = 0
  · exact ⟨Error.EOF, by simp [h0, h1], rfl⟩
  · exact ⟨Error.ErrUnexpectedEOF, by simp [h0, h1, h], rfl⟩

theorem Decode_lt_four (data : List Byte) (h : data.length < 4) :
    ∃ e, Decode data = .ret (none, some e) ∧ e.isEndOfInput = true := by
  match data, h with
  | [], _ => exact ⟨Error.EOF, rfl, rfl⟩
  | [_], _ => exact ⟨Error.EOF, rfl, rfl⟩
  | [_, _], _ => exact ⟨Error.EOF, rfl, rfl⟩
  | [_, _, _], _ => exact ⟨Error.ErrUnexpectedEOF, rfl, rfl⟩
  | _ :: _ :: _ :: _ :: _, h => simp only [List.length_cons] at h; omega

theorem Decode_cons (v t a b : Byte) (rest : List Byte) :
    Decode (v :: t :: a :: b :: rest) =
      match ReadBytes rest (Uint16 [a, b]) with
      | .error err => .ret (none, some err)
      | .ok (payload, buf) =>
        match ReadUint32 buf with
        | .error err => .ret (none, some err)
        | .ok (receivedChecksum, _) =>
          if receivedChecksum ≠ ChecksumIEEE ((v :: t :: a :: b :: rest).take rest.length) then
            .ret (none, some (Error.New "checksum mismatch"))
          else
            .ret (some ⟨v, t, payload⟩, none) := by
  have hs : sliceTo (v :: t :: a :: b :: rest)
      (((v :: t :: a :: b :: rest).length : Int) - 4)
      = .ret ((v :: t :: a :: b :: rest).take rest.length) := by
    have e : (((v :: t :: a :: b :: rest).length : Int) - 4) = (rest.length : Int) := by
      simp only [List.length_cons]; push_cast; ring
    rw [e]
    unfold sliceTo
    have : (0 : Int) ≤ rest.length ∧ (rest.length : Int) ≤ ((v :: t :: a :: b :: rest).length : Int) := by
      constructor
      · exact Int.natCast_nonneg _
      · simp only [List.length_cons]; push_cast; omega
    rw [if_pos this, Int.toNat_natCast]
  unfold Decode
  rw [hs]
  rfl

theorem Decode_truncated (v t a b : Byte) (rest : List Byte)
    (h : rest.length < Uint16 [a, b] + 4) :
    ∃ e, Decode (v :: t :: a :: b :: rest) = .ret (none, some e) ∧ e.isEndOfInput = true := by
  rw [Decode_cons]
  by_cases hl : Uint16 [a, b] ≤ rest.length
  · have h1 : ReadBytes rest (Uint16 [a, b])
        = .ok (rest.take (Uint16 [a, b]), rest.drop (Uint16 [a, b])) :=
      ReadFull_of_le rest _ hl
    have h2 : (rest.drop (Uint16 [a, b])).length < 4 := by
      rw [List.length_drop]; omega
    obtain ⟨e, he, hend⟩ := ReadFull_of_lt _ 4 h2
    refine ⟨e, ?_, hend⟩
    rw [h1]
    simp only [ReadUint32, he]
  · obtain ⟨e, he, hend⟩ := ReadFull_of_lt rest (Uint16 [a, b]) (by omega)
    refine ⟨e, ?_, hend⟩
    simp only [ReadBytes, he]

theorem Decode_complete (v t a b : Byte) (rest : List Byte)
    (h : Uint16 [a, b] + 4 ≤ rest.length) :
    Decode (v :: t :: a :: b :: rest) =
      if Uint32 ((rest.drop (Uint16 [a, b])).take 4)
          ≠ ChecksumIEEE ((v :: t :: a :: b :: rest).take rest.length) then
        .ret (none, some (Error.New "checksum mismatch"))
      else
        .ret (some ⟨v, t, rest.take (Uint16 [a, b])⟩, none) := by
  rw [Decode_cons]
  have h1 : ReadBytes rest (Uint16 [a, b])
      = .ok (rest.take (Uint16 [a, b]), rest.drop (Uint16 [a, b])) :=
    ReadFull_of_le rest _ (by omega)
  have h2 : ReadFull (rest.drop (Uint16 [a, b])) 4
      = .ok ((rest.drop (Uint16 [a, b])).take 4, (rest.drop (Uint16 [a, b])).drop 4) :=
    ReadFull_of_le _ 4 (by rw [List.length_drop]; omega)
  rw [h1]
  simp only [ReadUint32, h2]

/-- Decoding a well-formed header and payload followed by any four checksum
bytes and any trailing bytes. -/
theorem Decode_frame (v t : Byte) (payload : List Byte) (c0 c1 c2 c3 : Byte)
    (trail : List Byte) (h : payload.length < 2 ^ 16) :
    Decode (v :: t :: (PutUint16 payload.length ++ payload) ++ [c0, c1, c2, c3] ++ trail) =
      if Uint32 [c0, c1, c2, c3] ≠ ChecksumIEEE
          ((v :: t :: (PutUint16 payload.length ++ payload) ++ [c0, c1, c2, c3] ++ trail).take
            (payload.length + 4 + trail.length)) then
        .ret (none, some (Error.New "checksum mismatch"))
      else
        .ret (some ⟨v, t, payload⟩, none) := by
  have hu : Uint16 [byte (payload.length >>> 8), byte payload.length] = payload.length :=
    Uint16_PutUint16 _ h
  have e : v :: t :: (PutUint16 payload.length ++ payload) ++ [c0, c1, c2, c3] ++ trail
      = v :: t :: byte (payload.length >>> 8) :: byte payload.length ::
          (payload ++ c0 :: c1 :: c2 :: c3 :: trail) := by
    simp [PutUint16]
  rw [e, Decode_complete _ _ _ _ _ (by rw [hu]; simp), hu]
  have l : (payload ++ c0 :: c1 :: c2 :: c3 :: trail).length
      = payload.length + 4 + trail.length := by
    simp; omega
  rw [l]
  simp

/-- Decoding a well-formed header and payload followed by exactly four
checksum bytes: the checksum is recomputed over the header and the payload. -/
theorem Decode_exact (v t : Byte) (payload : List Byte) (c0 c1 c2 c3 : Byte)
    (h : payload.length < 2 ^ 16) :
    Decode (v :: t :: (PutUint16 payload.length ++ payload) ++ [c0, c1, c2, c3]) =
      if Uint32 [c0, c1, c2, c3]
          ≠ ChecksumIEEE (v :: t :: (PutUint16 payload.length ++ payload)) then
        .ret (none, some (Error.New "checksum mismatch"))
      else
        .ret (some ⟨v, t, payload⟩, none) := by
  have e := Decode_frame v t payload c0 c1 c2 c3 [] h
  simp only [List.append_nil, List.length_nil, Nat.add_zero] at e
  rw [e]
  have l : (v :: t :: (PutUint16 payload.length ++ payload)).length = payload.length + 4 := by
    simp [PutUint16]
  rw [← l, List.take_left]

theorem PutUint32_cons (c : Nat) :
    PutUint32 c = [byte (c >>> 24), byte (c >>> 16), byte (c >>> 8), byte c] := rfl

theorem list_length_four (c : List Byte) (hc : c.length = 4) :
    ∃ c0 c1 c2 c3, c = [c0, c1, c2, c3] := by
  match c, hc with
  | [c0, c1, c2, c3], _ => exact ⟨c0, c1, c2, c3, rfl⟩

theorem isEndOfInput_cases (e : Error) (h : e.isEndOfInput = true) :
    (e = Error.EOF ∨ e = Error.ErrUnexpectedEOF) ∧ e ≠ Error.New "checksum mismatch" := by
  cases e with
  | EOF => exact ⟨Or.inl rfl, by simp⟩
  | ErrUnexpectedEOF => exact ⟨Or.inr rfl, by simp⟩
  | New text => simp [Error.isEndOfInput] at h

theorem list_length_ge_four (data : List Byte) (h : 4 ≤ data.length) :
    ∃ v t a b rest, data = v :: t :: a :: b :: rest := by
  match data, h with
  | v :: t :: a :: b :: rest, _ => exact ⟨v, t, a, b, rest, rfl⟩

theorem byte_shiftRight_eight (n : Nat) : byte (n >>> 8) = byte (n / 256) := by
  rw [Nat.shiftRight_eq_div_pow]

theorem byte_mod (n : Nat) : byte (n % 256) = byte n := by
  apply Fin.ext
  rw [byte_val, byte_val, Nat.mod_mod]

/-- A payload of exactly `2 ^ 16` bytes is encoded without error, with length
field 0, and the encoding does not decode to the frame. -/
theorem Encode_length_field_wraps (v t : Byte) (payload : List Byte)
    (h : payload.length = 65536) :
    ∃ bs, Encode ⟨v, t, payload⟩ = (some bs, none) ∧
      bs.take 4 = [v, t, 0, 0] ∧
      bs.length = 65544 ∧
      Decode bs ≠ .ret (some ⟨v, t, payload⟩, none) := by
  have hz : PutUint16 (payload.length % 2 ^ 16) = [0, 0] := by
    rw [h]; rfl
  have hu : Uint16 [(0 : Byte), 0] = 0 := rfl
  refine ⟨_, Encode_eq _, ?_, ?_, ?_⟩
  · simp only [hz]
    rfl
  · simp only [List.length_append, List.length_cons, PutUint16, PutUint32, List.length_nil, h]
  · simp only [hz, List.cons_append, List.nil_append]
    rw [Decode_complete _ _ _ _ _
      (by rw [hu]; simp only [List.length_append, PutUint32, List.length_cons,
            List.length_nil, h]; omega), hu]
    split
    · simp
    · intro hcontra
      simp only [List.take_zero, Run.ret.injEq, Prod.mk.injEq, Option.some.injEq,
        DataPacket.mk.injEq, true_and, and_true] at hcontra
      rw [← hcontra] at h
      simp at h

/-! ## CRC-32 detects a change confined to one byte -/

theorem xor_shiftRight_of_lt (x y : Nat) (hy : y < 2 ^ 24) :
    (x ^^^ y) >>> 24 = x >>> 24 := by
  apply Nat.eq_of_testBit_eq
  intro j
  have hj : y.testBit (24 + j) = false :=
    Nat.testBit_lt_two_pow (lt_of_lt_of_le hy (Nat.pow_le_pow_right (by decide) (by omega)))
  simp only [Nat.testBit_shiftRight, Nat.testBit_xor, hj, Bool.xor_false]

set_option maxRecDepth 1000000 in
/-- The top byte of a table entry determines its index. -/
theorem simpleMakeTable_top_inj :
    ∀ i, i < 256 → ∀ j, j < 256 →
      simpleMakeTable IEEE i >>> 24 = simpleMakeTable IEEE j >>> 24 → i = j := by
  decide!

theorem table_index_lt (crc : Nat) (v : Byte) : (crc % 256) ^^^ v.val < 256 := by
  have h1 : crc % 256 < 2 ^ 8 := by omega
  have h2 : v.val < 2 ^ 8 := v.isLt
  exact Nat.xor_lt_two_pow h1 h2

theorem updateStep_eq_iff (c1 c2 : Nat) (v1 v2 : Byte) (h1 : c1 < 2 ^ 32) (h2 : c2 < 2 ^ 32)
    (h : updateStep (simpleMakeTable IEEE) c1 v1 = updateStep (simpleMakeTable IEEE) c2 v2) :
    (c1 % 256) ^^^ v1.val = (c2 % 256) ^^^ v2.val ∧ c1 >>> 8 = c2 >>> 8 := by
  unfold updateStep at h
  have s1 : c1 >>> 8 < 2 ^ 24 := by
    rw [Nat.shiftRight_eq_div_pow]; omega
  have s2 : c2 >>> 8 < 2 ^ 24 := by
    rw [Nat.shiftRight_eq_div_pow]; omega
  have top := congrArg (fun x => x >>> 24) h
  simp only [xor_shiftRight_of_lt _ _ s1, xor_shiftRight_of_lt _ _ s2] at top
  have hidx := simpleMakeTable_top_inj _ (table_index_lt c1 v1) _ (table_index_lt c2 v2) top
  refine ⟨hidx, ?_⟩
  rw [hidx] at h
  exact Nat.xor_right_inj.mp h

theorem updateStep_inj_crc (c1 c2 : Nat) (v : Byte) (h1 : c1 < 2 ^ 32) (h2 : c2 < 2 ^ 32)
    (h : updateStep (simpleMakeTable IEEE) c1 v = updateStep (simpleMakeTable IEEE) c2 v) :
    c1 = c2 := by
  obtain ⟨hi, hs⟩ := updateStep_eq_iff c1 c2 v v h1 h2 h
  have hm : c1 % 256 = c2 % 256 := Nat.xor_left_inj.mp hi
  simp only [Nat.shiftRight_eq_div_pow] at hs
  omega

theorem updateStep_inj_byte (c : Nat) (v1 v2 : Byte) (hc : c < 2 ^ 32)
    (h : updateStep (simpleMakeTable IEEE) c v1 = updateStep (simpleMakeTable IEEE) c v2) :
    v1 = v2 := by
  obtain ⟨hi, -⟩ := updateStep_eq_iff c c v1 v2 hc hc h
  exact Fin.ext (Nat.xor_right_inj.mp hi)

theorem foldl_updateStep_ne (ys : List Byte) (s1 s2 : Nat) (h1 : s1 < 2 ^ 32)
    (h2 : s2 < 2 ^ 32) (hne : s1 ≠ s2) :
    ys.foldl (updateStep (simpleMakeTable IEEE)) s1
      ≠ ys.foldl (updateStep (simpleMakeTable IEEE)) s2 := by
  induction ys generalizing s1 s2 with
  | nil => simpa using hne
  | cons v ys ih =>
    simp only [List.foldl_cons]
    exact ih _ _ (updateStep_lt s1 v h1) (updateStep_lt s2 v h2)
      (fun h => hne (updateStep_inj_crc s1 s2 v h1 h2 h))

theorem ChecksumIEEE_append_cons_ne (xs ys : List Byte) (a b : Byte) (hab : a ≠ b) :
    ChecksumIEEE (xs ++ a :: ys) ≠ ChecksumIEEE (xs ++ b :: ys) := by
  unfold ChecksumIEEE simpleUpdate
  simp only [List.foldl_append, List.foldl_cons]
  intro h
  have hs : xs.foldl (updateStep (simpleMakeTable IEEE)) (0 ^^^ 0xffffffff) < 2 ^ 32 :=
    foldl_updateStep_lt xs _ (by decide)
  exact foldl_updateStep_ne ys _ _ (updateStep_lt _ a hs) (updateStep_lt _ b hs)
    (fun h => hab (updateStep_inj_byte _ a b hs h)) (Nat.xor_left_inj.mp h)

/-- Replacing one byte of a message by a different byte changes its CRC-32. -/
theorem ChecksumIEEE_set_ne (l : List Byte) (i : Nat) (hi : i < l.length) (x : Byte)
    (hx : x ≠ l.getD i 0) : ChecksumIEEE (l.set i x) ≠ ChecksumIEEE l := by
  have e1 : l.set i x = l.take i ++ x :: l.drop (i + 1) := by
    rw [List.set_eq_take_append_cons_drop, if_pos hi]
  have e2 : l = l.take i ++ l.getD i 0 :: l.drop (i + 1) := by
    have hg : l.getD i 0 = l[i] := by
      simp [List.getD_eq_getElem?_getD, List.getElem?_eq_getElem hi]
    rw [hg, ← List.drop_eq_getElem_cons hi, List.take_append_drop]
  have key := ChecksumIEEE_append_cons_ne (l.take i) (l.drop (i + 1)) x (l.getD i 0) hx
  rw [← e1, ← e2] at key
  exact key

theorem byte_xor_two_pow_ne (b : Byte) (k : Nat) (hk : k < 8) :
    byte (b.val ^^^ 2 ^ k) ≠ b := by
  intro h
  have hv := congrArg Fin.val h
  rw [byte_val] at hv
  have h1 : b.val < 2 ^ 8 := b.isLt
  have h2 : 2 ^ k < 2 ^ 8 := Nat.pow_lt_pow_right (by decide) hk
  have h3 : b.val ^^^ 2 ^ k < 256 := Nat.xor_lt_two_pow h1 h2
  rw [Nat.mod_eq_of_lt h3] at hv
  have h4 : b.val ^^^ 2 ^ k = b.val ^^^ 0 := by rw [hv, Nat.xor_zero]
  have h5 : 2 ^ k = 0 := Nat.xor_right_inj.mp h4
  have h6 : 0 < 2 ^ k := Nat.pos_pow_of_pos k (by decide)
  omega

/-! ## `Decode` in terms of the positions of its input -/

theorem Decode_of_short (data : List Byte) (h : data.length < declaredLength data + 8) :
    ∃ e, Decode data = .ret (none, some e) ∧ e.isEndOfInput = true := by
  by_cases h4 : data.length < 4
  · exact Decode_lt_four data h4
  obtain ⟨v, t, a, b, rest, rfl⟩ := list_length_ge_four data (by omega)
  simp only [declaredLength, List.getD_cons_zero, List.getD_cons_succ, List.length_cons] at h
  exact Decode_truncated v t a b rest (by rw [Uint16_eq]; omega)

theorem Decode_of_long (data : List Byte) (h4 : 4 ≤ data.length)
    (h : declaredLength data + 8 ≤ data.length) :
    Decode data =
      if Uint32 ((data.drop (4 + declaredLength data)).take 4)
          ≠ ChecksumIEEE (data.take (data.length - 4)) then
        .ret (none, some (Error.New "checksum mismatch"))
      else
        .ret (some ⟨data.getD 0 0, data.getD 1 0, (data.drop 4).take (declaredLength data)⟩,
          none) := by
  obtain ⟨v, t, a, b, rest, rfl⟩ := list_length_ge_four data h4
  have hL : declaredLength (v :: t :: a :: b :: rest) = Uint16 [a, b] := by
    simp only [declaredLength, List.getD_cons_zero, List.getD_cons_succ, Uint16_eq]
    rw [Nat.mul_comm]
  rw [hL] at h ⊢
  simp only [List.length_cons] at h
  rw [Decode_complete v t a b rest (by omega)]
  have e1 : (v :: t :: a :: b :: rest).drop (4 + Uint16 [a, b]) = rest.drop (Uint16 [a, b]) := by
    rw [Nat.add_comm]; rfl
  have e2 : (v :: t :: a :: b :: rest).length - 4 = rest.length := by
    simp only [List.length_cons]; omega
  rw [e1, e2]
  rfl

theorem PutUint16_Uint16 (a b : Byte) : PutUint16 (Uint16 [a, b]) = [a, b] := by
  have ha : a.val < 2 ^ 8 := a.isLt
  have hb : b.val < 2 ^ 8 := b.isLt
  simp only [PutUint16, Uint16_eq, Nat.shiftRight_eq_div_pow]
  have e1 : byte ((a.val * 256 + b.val) / 2 ^ 8) = a := by
    apply Fin.ext; rw [byte_val]; omega
  have e2 : byte (a.val * 256 + b.val) = b := by
    apply Fin.ext; rw [byte_val]; omega
  rw [e1, e2]

/-! ## Encodings with one altered byte, and with a wrapped length field -/

/-- Decoding an encoding whose version, type or payload bytes were replaced by
others with a different CRC-32, the length field and the checksum field being
kept. -/
theorem Decode_modified_body (v t w u : Byte) (payload changed : List Byte)
    (hlen : changed.length = payload.length) (h : payload.length < 2 ^ 16)
    (hcrc : ChecksumIEEE (w :: u :: (PutUint16 payload.length ++ changed))
      ≠ ChecksumIEEE (v :: t :: (PutUint16 payload.length ++ payload))) :
    Decode (w :: u :: (PutUint16 payload.length ++ changed)
        ++ PutUint32 (ChecksumIEEE (v :: t :: (PutUint16 payload.length ++ payload))))
      = .ret (none, some (Error.New "checksum mismatch")) := by
  rw [← hlen] at hcrc h ⊢
  rw [PutUint32_cons, Decode_exact _ _ _ _ _ _ _ h, ← PutUint32_cons,
    Uint32_PutUint32 _ (ChecksumIEEE_lt _), if_pos (Ne.symm hcrc)]

theorem declaredLength_set (l : List Byte) (i : Nat) (x : Byte) (h2 : i ≠ 2) (h3 : i ≠ 3) :
    declaredLength (l.set i x) = declaredLength l := by
  simp only [declaredLength, List.getD_eq_getElem?_getD, List.getElem?_set_ne h2,
    List.getElem?_set_ne h3]

theorem declaredLength_encoding (v t : Byte) (n : Nat) (tail : List Byte) (h : n < 2 ^ 16) :
    declaredLength (v :: t :: (PutUint16 n ++ tail)) = n := by
  simp only [PutUint16, List.cons_append, List.nil_append, declaredLength,
    List.getD_cons_zero, List.getD_cons_succ, byte_val, Nat.shiftRight_eq_div_pow]
  omega

/-- What `Decode` makes of the encoding of a frame whose payload length does
not fit the length field: the declared length is `n mod 65536`, the received
checksum is taken from the payload, the recomputed one covers the header and
the whole payload. -/
theorem Decode_wrapped (v t : Byte) (payload : List Byte) (h : 65535 < payload.length) :
    Decode (v :: t :: (PutUint16 (payload.length % 2 ^ 16) ++ payload)
        ++ PutUint32 (ChecksumIEEE
          (v :: t :: (PutUint16 (payload.length % 2 ^ 16) ++ payload))))
      = if Uint32 ((payload.drop (payload.length % 2 ^ 16)).take 4)
            ≠ ChecksumIEEE (v :: t :: (PutUint16 (payload.length % 2 ^ 16) ++ payload)) then
          .ret (none, some (Error.New "checksum mismatch"))
        else
          .ret (some ⟨v, t, payload.take (payload.length % 2 ^ 16)⟩, none) := by
  have hL : payload.length % 2 ^ 16 < 2 ^ 16 := Nat.mod_lt _ (by decide)
  have hLn : payload.length % 2 ^ 16 + 65536 ≤ payload.length := by omega
  have hu : Uint16 [byte ((payload.length % 2 ^ 16) >>> 8), byte (payload.length % 2 ^ 16)]
      = payload.length % 2 ^ 16 := Uint16_PutUint16 _ hL
  generalize hcs : PutUint32 (ChecksumIEEE
    (v :: t :: (PutUint16 (payload.length % 2 ^ 16) ++ payload))) = cs
  have hcl : cs.length = 4 := by rw [← hcs]; rfl
  have e : v :: t :: (PutUint16 (payload.length % 2 ^ 16) ++ payload) ++ cs
      = v :: t :: byte ((payload.length % 2 ^ 16) >>> 8) :: byte (payload.length % 2 ^ 16) ::
          (payload ++ cs) := by
    simp [PutUint16]
  have e' : v :: t :: (PutUint16 (payload.length % 2 ^ 16) ++ payload)
      = v :: t :: byte ((payload.length % 2 ^ 16) >>> 8) :: byte (payload.length % 2 ^ 16) ::
          payload := by
    simp [PutUint16]
  rw [e, e', Decode_complete _ _ _ _ _ (by rw [hu, List.length_append]; omega), hu]
  have d1 : ((payload ++ cs).drop (payload.length % 2 ^ 16)).take 4
      = (payload.drop (payload.length % 2 ^ 16)).take 4 := by
    rw [List.drop_append_of_le_length (by omega),
      List.take_append_of_le_length (by rw [List.length_drop]; omega)]
  have d2 : (v :: t :: byte ((payload.length % 2 ^ 16) >>> 8) ::
        byte (payload.length % 2 ^ 16) :: (payload ++ cs)).take (payload ++ cs).length
      = v :: t :: byte ((payload.length % 2 ^ 16) >>> 8) :: byte (payload.length % 2 ^ 16) ::
          payload := by
    rw [List.length_append, hcl]
    simp only [List.take_succ_cons]
    rw [List.take_left]
  have d3 : (payload ++ cs).take (payload.length % 2 ^ 16)
      = payload.take (payload.length % 2 ^ 16) :=
    List.take_append_of_le_length (by omega)
  rw [d1, d2, d3]

/-- Of two payloads of 65536 bytes that start with four zero bytes and differ
in the last byte only, at least one has an encoding that `Decode` rejects with
the checksum-mismatch error. -/
theorem Decode_wrapped_pair (v t : Byte) (pre : List Byte) (hlen : pre.length = 65535)
    (htake : pre.take 4 = [0, 0, 0, 0]) :
    (∃ bs, Encode ⟨v, t, pre ++ [0]⟩ = (some bs, none) ∧
        Decode bs = .ret (none, some (Error.New "checksum mismatch"))) ∨
      (∃ bs, Encode ⟨v, t, pre ++ [1]⟩ = (some bs, none) ∧
        Decode bs = .ret (none, some (Error.New "checksum mismatch"))) := by
  have key : ∀ x : Byte, ∃ bs, Encode ⟨v, t, pre ++ [x]⟩ = (some bs, none) ∧
      Decode bs = if (0 : Nat) ≠ ChecksumIEEE (v :: t :: 0 :: 0 :: pre ++ [x]) then
          .ret (none, some (Error.New "checksum mismatch"))
        else .ret (some ⟨v, t, []⟩, none) := by
    intro x
    refine ⟨_, Encode_eq _, ?_⟩
    have hn : (pre ++ [x]).length = 65536 := by
      rw [List.length_append, hlen]; rfl
    have hw := Decode_wrapped v t (pre ++ [x]) (by rw [hn]; decide)
    have hm : (pre ++ [x]).length % 2 ^ 16 = 0 := by rw [hn]; rfl
    have hz : PutUint16 0 = [0, 0] := rfl
    have hr : Uint32 [(0 : Byte), 0, 0, 0] = 0 := rfl
    simp only [hm, hz, List.drop_zero, List.take_zero] at hw
    rw [List.take_append_of_le_length (by rw [hlen]; decide), htake, hr] at hw
    simp only [hm, hz]
    exact hw
  obtain ⟨b0, e0, d0⟩ := key 0
  obtain ⟨b1, e1, d1⟩ := key 1
  have hne := ChecksumIEEE_append_cons_ne (v :: t :: 0 :: 0 :: pre) [] 0 1 (by decide)
  by_cases hc : (0 : Nat) = ChecksumIEEE (v :: t :: 0 :: 0 :: pre ++ [0])
  · right
    refine ⟨b1, e1, ?_⟩
    rw [d1, if_pos]
    intro h1
    exact hne (hc.symm.trans h1)
  · left
    exact ⟨b0, e0, by rw [d0, if_pos hc]⟩

/-! ## `Encode` on slice values -/

theorem Slice.length_elems (s : Slice) (h : s.WellFormed) : s.elems.length = s.len := by
  obtain ⟨h1, h2⟩ := h
  simp only [Slice.elems, List.length_take, List.length_drop]
  omega

/-- On a well-formed slice value `EncodeRaw` is `Encode` of the elements. -/
theorem EncodeRaw_eq_Encode (p : RawDataPacket) (h : p.Payload.WellFormed) :
    EncodeRaw p = Encode ⟨p.Version, p.Type_, p.Payload.elems⟩ := by
  simp only [EncodeRaw, Encode, Slice.length_elems p.Payload h]

/-! ## The claims -/

/-- C1 (round trip). For every version byte, kind byte and payload of at most
65535 bytes (the empty payload and a 65535-byte payload included), `Encode`
returns bytes and no error, and `Decode` of these bytes returns no error and a
frame with the same `Version`, the same `Type` and the same `Payload`. -/
theorem Decode_Encode_roundtrip (p : DataPacket) (h : p.Payload.length ≤ 65535) :
    ∃ bs, Encode p = (some bs, none) ∧ Decode bs = .ret (some p, none) := by
  refine ⟨_, Encode_eq p, ?_⟩
  have hm : p.Payload.length % 2 ^ 16 = p.Payload.length := Nat.mod_eq_of_lt (by omega)
  rw [hm, PutUint32_cons, Decode_exact _ _ _ _ _ _ _ (by omega), ← PutUint32_cons,
    Uint32_PutUint32 _ (ChecksumIEEE_lt _)]
  simp

set_option maxRecDepth 100000 in
/-- C1 at the frame of the test "Normal case": version 1, type 1, payload
"Hello". -/
theorem Decode_Encode_roundtrip_witness :
    ∃ bs, Encode ⟨1, 1, [72, 101, 108, 108, 111]⟩ = (some bs, none) ∧
      Decode bs = .ret (some ⟨1, 1, [72, 101, 108, 108, 111]⟩, none) :=
  Decode_Encode_roundtrip ⟨1, 1, [72, 101, 108, 108, 111]⟩ (by decide)

/-- C3 (corrupted checksum is rejected). For every frame with a payload of at
most 65535 bytes, `Encode` returns bytes `bs` and no error, and for every
four-byte value `c` other than the last four bytes of `bs`, `Decode` of `bs`
with its last four bytes replaced by `c` returns no frame and the error
"checksum mismatch". -/
theorem Decode_corrupted_checksum (p : DataPacket) (h : p.Payload.length ≤ 65535) :
    ∃ bs, Encode p = (some bs, none) ∧
      ∀ c : List Byte, c.length = 4 → c ≠ bs.drop (bs.length - 4) →
        Decode (bs.take (bs.length - 4) ++ c)
          = .ret (none, some (Error.New "checksum mismatch")) := by
  refine ⟨_, Encode_eq p, ?_⟩
  intro c hc hne
  have hm : p.Payload.length % 2 ^ 16 = p.Payload.length := Nat.mod_eq_of_lt (by omega)
  rw [hm] at hne ⊢
  have l : ((p.Version :: p.Type_ :: (PutUint16 p.Payload.length ++ p.Payload)) ++
      PutUint32 (ChecksumIEEE
        (p.Version :: p.Type_ :: (PutUint16 p.Payload.length ++ p.Payload)))).length - 4
      = (p.Version :: p.Type_ :: (PutUint16 p.Payload.length ++ p.Payload)).length := by
    simp only [List.length_append, List.length_cons, PutUint32, PutUint16, List.length_nil]
    omega
  rw [l] at hne ⊢
  rw [List.drop_left] at hne
  rw [List.take_left]
  obtain ⟨c0, c1, c2, c3, rfl⟩ := list_length_four c hc
  rw [Decode_exact _ _ _ _ _ _ _ (by omega), if_pos]
  intro heq
  apply hne
  rw [← heq, PutUint32_Uint32]

set_option maxRecDepth 100000 in
/-- C3 at the test "Incorrect checksum": the encoding of version 1, type 1,
payload "Hello" with its last four bytes overwritten by zeros. -/
theorem Decode_corrupted_checksum_witness :
    Encode ⟨1, 1, [72, 101, 108, 108, 111]⟩
        = (some [1, 1, 0, 5, 72, 101, 108, 108, 111, 92, 230, 239, 95], none) ∧
      Decode [1, 1, 0, 5, 72, 101, 108, 108, 111, 0, 0, 0, 0]
        = .ret (none, some (Error.New "checksum mismatch")) := by
  obtain ⟨bs, hbs, hall⟩ :=
    Decode_corrupted_checksum ⟨1, 1, [72, 101, 108, 108, 111]⟩ (by decide)
  have e : Encode ⟨1, 1, [72, 101, 108, 108, 111]⟩
      = (some [1, 1, 0, 5, 72, 101, 108, 108, 111, 92, 230, 239, 95], none) := by decide
  rw [e] at hbs
  cases hbs
  exact ⟨e, hall [0, 0, 0, 0] rfl (by decide)⟩

set_option maxRecDepth 100000 in
/-- C2 (wire layout). For every frame whose payload has `n <= 65535` bytes,
`Encode` returns no error and exactly the bytes `Version`, `Type`, `n / 256`,
`n mod 256`, then the payload bytes unchanged and in order, then the four
big-endian bytes of the CRC-32 (IEEE, reflected polynomial 0xEDB88320) of these
first `4 + n` bytes; the test helper `prepareEncodedData` builds the same byte
string. The checksum function is pinned by the standard check value: the
CRC-32 of the ASCII digits "123456789" is 0xCBF43926. -/
theorem Encode_wire_layout (p : DataPacket) (h : p.Payload.length ≤ 65535) :
    ∃ crc : Nat,
      crc = ChecksumIEEE
        ([p.Version, p.Type_, byte (p.Payload.length / 256), byte (p.Payload.length % 256)]
          ++ p.Payload) ∧
      crc < 2 ^ 32 ∧
      Encode p =
        (some ([p.Version, p.Type_, byte (p.Payload.length / 256),
              byte (p.Payload.length % 256)]
            ++ p.Payload
            ++ [byte (crc / 2 ^ 24), byte (crc / 2 ^ 16), byte (crc / 2 ^ 8), byte crc]),
         none) ∧
      (byte (p.Payload.length / 256)).val = p.Payload.length / 256 ∧
      (byte (p.Payload.length % 256)).val = p.Payload.length % 256 ∧
      Uint32 [byte (crc / 2 ^ 24), byte (crc / 2 ^ 16), byte (crc / 2 ^ 8), byte crc] = crc ∧
      (Encode p).1 = some (prepareEncodedData p.Version p.Type_ p.Payload) ∧
      IEEE = 0xEDB88320 ∧
      ChecksumIEEE [0x31, 0x32, 0x33, 0x34, 0x35, 0x36, 0x37, 0x38, 0x39] = 0xCBF43926 := by
  have hm : p.Payload.length % 2 ^ 16 = p.Payload.length := Nat.mod_eq_of_lt (by omega)
  have hdr : PutUint16 p.Payload.length
      = [byte (p.Payload.length / 256), byte (p.Payload.length % 256)] := by
    rw [PutUint16, byte_shiftRight_eight, byte_mod]
  have hput : ∀ c : Nat,
      PutUint32 c = [byte (c / 2 ^ 24), byte (c / 2 ^ 16), byte (c / 2 ^ 8), byte c] := by
    intro c
    simp only [PutUint32, Nat.shiftRight_eq_div_pow]
  refine ⟨_, rfl, ChecksumIEEE_lt _, ?_, ?_, ?_, ?_, ?_, rfl, by decide⟩
  · rw [Encode_eq, hm, hdr, hput]
    rfl
  · rw [byte_val]; omega
  · rw [byte_val]; omega
  · rw [← hput, Uint32_PutUint32 _ (ChecksumIEEE_lt _)]
  · rw [Encode_eq]
    rfl

set_option maxRecDepth 100000 in
/-- C2 at the frame of the test "Empty payload": version 1, type 1, no
payload; the four checksum bytes are those of the CRC-32 of `[1, 1, 0, 0]`. -/
theorem Encode_wire_layout_witness :
    Encode ⟨1, 1, []⟩ = (some [1, 1, 0, 0, 152, 58, 210, 78], none) ∧
      ChecksumIEEE [1, 1, 0, 0] = 152 * 2 ^ 24 + 58 * 2 ^ 16 + 210 * 2 ^ 8 + 78 := by
  obtain ⟨crc, hcrc, -, henc, -⟩ := Encode_wire_layout ⟨1, 1, []⟩ (by decide)
  have e : ChecksumIEEE [1, 1, 0, 0] = 152 * 2 ^ 24 + 58 * 2 ^ 16 + 210 * 2 ^ 8 + 78 := by
    decide
  refine ⟨?_, e⟩
  subst hcrc
  rw [henc]
  decide

/-- C4 (truncated header). For every input of length 0, 1, 2 or 3, `Decode`
returns no frame and an end-of-input error (`io.EOF` or
`io.ErrUnexpectedEOF`), which is not the checksum-mismatch error. -/
theorem Decode_truncated_header (data : List Byte) (h : data.length ≤ 3) :
    ∃ e, Decode data = .ret (none, some e) ∧
      (e = Error.EOF ∨ e = Error.ErrUnexpectedEOF) ∧
      e ≠ Error.New "checksum mismatch" := by
  obtain ⟨e, he, hend⟩ := Decode_lt_four data (by omega)
  exact ⟨e, he, isEndOfInput_cases e hend⟩

/-- C4 at the input of the test "Corrupted data (short length)": the three
bytes 1, 1, 0. -/
theorem Decode_truncated_header_witness :
    ∃ e, Decode [1, 1, 0] = .ret (none, some e) ∧
      (e = Error.EOF ∨ e = Error.ErrUnexpectedEOF) ∧
      e ≠ Error.New "checksum mismatch" :=
  Decode_truncated_header [1, 1, 0] (by decide)

/-- C5 (truncated payload or checksum). For every input of at least 4 bytes
whose declared length `L = 256 * data[2] + data[3]` satisfies
`len(data) < 4 + L + 4`, `Decode` returns no frame (so no frame padded with
zeros) and an end-of-input error, never the checksum-mismatch error. -/
theorem Decode_truncated_body (data : List Byte) (h4 : 4 ≤ data.length)
    (h : data.length < 4 + (256 * (data.getD 2 0).val + (data.getD 3 0).val) + 4) :
    ∃ e, Decode data = .ret (none, some e) ∧
      (e = Error.EOF ∨ e = Error.ErrUnexpectedEOF) ∧
      e ≠ Error.New "checksum mismatch" := by
  obtain ⟨v, t, a, b, rest, rfl⟩ := list_length_ge_four data h4
  simp only [List.getD_cons_zero, List.getD_cons_succ, List.length_cons] at h
  obtain ⟨e, he, hend⟩ := Decode_truncated v t a b rest (by rw [Uint16_eq]; omega)
  exact ⟨e, he, isEndOfInput_cases e hend⟩

/-- C5 at a header that declares five payload bytes followed by only three
of them. -/
theorem Decode_truncated_body_witness :
    ∃ e, Decode [1, 1, 0, 5, 72, 101, 108] = .ret (none, some e) ∧
      (e = Error.EOF ∨ e = Error.ErrUnexpectedEOF) ∧
      e ≠ Error.New "checksum mismatch" :=
  Decode_truncated_body [1, 1, 0, 5, 72, 101, 108] (by decide) (by decide)

/-- C6 (oversized payload at encode time), evaluated on the code: for version
1, type 1 and a payload of 65536 zero bytes `Encode` reports no error; it
returns 65544 bytes whose length field is 0, and `Decode` of these bytes does
not give the frame back. -/
theorem Encode_oversized_not_rejected :
    ∃ bs, Encode ⟨1, 1, List.replicate 65536 0⟩ = (some bs, none) ∧
      bs.take 4 = [1, 1, 0, 0] ∧
      bs.length = 65544 ∧
      Decode bs ≠ .ret (some ⟨1, 1, List.replicate 65536 0⟩, none) :=
  Encode_length_field_wraps 1 1 (List.replicate 65536 0) (List.length_replicate _ _)

set_option maxRecDepth 100000 in
/-- C7 (trailing bytes), evaluated on the code: the encoding of version 1,
type 1, empty payload decodes to that frame, but followed by one more zero byte
`Decode` returns no frame and the error "checksum mismatch". -/
theorem Decode_trailing_byte_rejected :
    Encode ⟨1, 1, []⟩ = (some [1, 1, 0, 0, 152, 58, 210, 78], none) ∧
      Decode [1, 1, 0, 0, 152, 58, 210, 78] = .ret (some ⟨1, 1, []⟩, none) ∧
      Decode ([1, 1, 0, 0, 152, 58, 210, 78] ++ [0])
        = .ret (none, some (Error.New "checksum mismatch")) := by
  refine ⟨by decide, by decide, by decide⟩

/-- C8 (decoded fields come from the wire positions). Whenever `Decode`
succeeds on `data`, the returned frame has `Version = data[0]`,
`Type = data[1]` and `Payload` equal to the bytes `data[4 .. 4+L)` with
`L = 256 * data[2] + data[3]`, and `len(Payload) = L`. -/
theorem Decode_fields (data : List Byte) (p : DataPacket)
    (h : Decode data = .ret (some p, none)) :
    data[0]? = some p.Version ∧ data[1]? = some p.Type_ ∧
      ∃ a b : Byte, data[2]? = some a ∧ data[3]? = some b ∧
        p.Payload = (data.drop 4).take (256 * a.val + b.val) ∧
        p.Payload.length = 256 * a.val + b.val ∧
        4 + (256 * a.val + b.val) ≤ data.length := by
  by_cases h4 : data.length < 4
  · obtain ⟨e, he, -⟩ := Decode_lt_four data h4
    rw [he] at h
    simp at h
  obtain ⟨v, t, a, b, rest, rfl⟩ := list_length_ge_four data (by omega)
  by_cases ht : rest.length < Uint16 [a, b] + 4
  · obtain ⟨e, he, -⟩ := Decode_truncated v t a b rest ht
    rw [he] at h
    simp at h
  rw [Decode_complete v t a b rest (by omega)] at h
  split at h
  · simp at h
  · have hp : p = ⟨v, t, rest.take (Uint16 [a, b])⟩ := by
      simp only [Run.ret.injEq, Prod.mk.injEq, Option.some.injEq, and_true] at h
      exact h.symm
    subst hp
    rw [Uint16_eq] at ht ⊢
    refine ⟨by simp, by simp, a, b, by simp, by simp, ?_, ?_, ?_⟩
    · simp only [List.drop_succ_cons, List.drop_zero]
      rw [Nat.mul_comm]
    · simp only [List.length_take]
      omega
    · simp only [List.length_cons]
      omega

set_option maxRecDepth 100000 in
/-- C8 at the encoding of version 1, type 1, payload "Hello". -/
theorem Decode_fields_witness :
    ([1, 1, 0, 5, 72, 101, 108, 108, 111, 92, 230, 239, 95] : List Byte)[0]? = some 1 ∧
      ([1, 1, 0, 5, 72, 101, 108, 108, 111, 92, 230, 239, 95] : List Byte)[1]? = some 1 ∧
      ∃ a b : Byte,
        ([1, 1, 0, 5, 72, 101, 108, 108, 111, 92, 230, 239, 95] : List Byte)[2]? = some a ∧
        ([1, 1, 0, 5, 72, 101, 108, 108, 111, 92, 230, 239, 95] : List Byte)[3]? = some b ∧
        ([72, 101, 108, 108, 111] : List Byte)
          = (([1, 1, 0, 5, 72, 101, 108, 108, 111, 92, 230, 239, 95] : List Byte).drop 4).take
              (256 * a.val + b.val) ∧
        ([72, 101, 108, 108, 111] : List Byte).length = 256 * a.val + b.val ∧
        4 + (256 * a.val + b.val)
          ≤ ([1, 1, 0, 5, 72, 101, 108, 108, 111, 92, 230, 239, 95] : List Byte).length :=
  Decode_fields [1, 1, 0, 5, 72, 101, 108, 108, 111, 92, 230, 239, 95]
    ⟨1, 1, [72, 101, 108, 108, 111]⟩ (by decide)

/-- C9 (`Decode` never panics). For every byte sequence `Decode` does not
panic: it returns either a frame and no error, or an error and no frame.
The slice expression `data[:len(data)-4]` is reached only after all reads
succeeded: on an input of fewer than 8 bytes `Decode` has already returned an
end-of-input error from a read, and for every input of at least 4 bytes the
slice expression itself is in range. -/
theorem Decode_never_panics (data : List Byte) :
    Decode data ≠ Run.panic ∧
      ((∃ p, Decode data = .ret (some p, none)) ∨ (∃ e, Decode data = .ret (none, some e))) ∧
      (data.length < 8 →
        ∃ e, Decode data = .ret (none, some e) ∧ e.isEndOfInput = true) ∧
      (4 ≤ data.length →
        sliceTo data ((data.length : Int) - 4) = .ret (data.take (data.length - 4))) := by
  have key : ((∃ p, Decode data = .ret (some p, none)) ∨
      (∃ e, Decode data = .ret (none, some e))) ∧
      (data.length < 8 →
        ∃ e, Decode data = .ret (none, some e) ∧ e.isEndOfInput = true) := by
    by_cases h4 : data.length < 4
    · obtain ⟨e, he, hend⟩ := Decode_lt_four data h4
      exact ⟨Or.inr ⟨e, he⟩, fun _ => ⟨e, he, hend⟩⟩
    obtain ⟨v, t, a, b, rest, rfl⟩ := list_length_ge_four data (by omega)
    by_cases ht : rest.length < Uint16 [a, b] + 4
    · obtain ⟨e, he, hend⟩ := Decode_truncated v t a b rest ht
      exact ⟨Or.inr ⟨e, he⟩, fun _ => ⟨e, he, hend⟩⟩
    constructor
    · rw [Decode_complete v t a b rest (by omega)]
      split
      · exact Or.inr ⟨_, rfl⟩
      · exact Or.inl ⟨_, rfl⟩
    · intro h8
      simp only [List.length_cons] at h8
      omega
  refine ⟨?_, key.1, key.2, ?_⟩
  · rcases key.1 with ⟨p, hp⟩ | ⟨e, he⟩
    · rw [hp]; simp
    · rw [he]; simp
  · intro h4
    unfold sliceTo
    have hc : (0 : Int) ≤ (data.length : Int) - 4 ∧
        (data.length : Int) - 4 ≤ (data.length : Int) := by
      constructor <;> omega
    rw [if_pos hc]
    congr 2
    omega

/-- C9 at a seven-byte input: complete header, empty payload, three of the
four checksum bytes. -/
theorem Decode_never_panics_witness :
    ∃ e, Decode [1, 1, 0, 0, 152, 58, 210] = .ret (none, some e) ∧
      e.isEndOfInput = true :=
  (Decode_never_panics [1, 1, 0, 0, 152, 58, 210]).2.2.1 (by decide)

/-- C10 (length invariant). For every frame, `Encode` returns no error and an
output of exactly `len(Payload) + 8` bytes. -/
theorem Encode_length (p : DataPacket) :
    ∃ bs, Encode p = (some bs, none) ∧ bs.length = p.Payload.length + 8 := by
  refine ⟨_, Encode_eq p, ?_⟩
  simp only [List.length_append, List.length_cons, PutUint16, PutUint32, List.length_nil]
  omega



/-- C12 (determinism). `Encode` is taken on the values it receives, where the
payload is a slice value with a backing array, an offset and a capacity. For
any two frames with equal `Version`, equal `Type` and byte-wise equal
`Payload` (equal elements, whatever the backing arrays, offsets, capacities,
and whether a slice is `nil` or empty), `Encode` returns the same bytes and the
same error result, namely those of `Encode` on the three fields alone: the
output depends on nothing but these three fields. -/
theorem Encode_deterministic (p q : RawDataPacket)
    (hp : p.Payload.WellFormed) (hq : q.Payload.WellFormed)
    (hv : p.Version = q.Version) (ht : p.Type_ = q.Type_)
    (hb : p.Payload.elems = q.Payload.elems) :
    EncodeRaw p = EncodeRaw q ∧
      (EncodeRaw p).1 = (EncodeRaw q).1 ∧ (EncodeRaw p).2 = (EncodeRaw q).2 ∧
      EncodeRaw p = Encode ⟨p.Version, p.Type_, p.Payload.elems⟩ ∧
      EncodeRaw q = Encode ⟨p.Version, p.Type_, p.Payload.elems⟩ := by
  have e1 := EncodeRaw_eq_Encode p hp
  have e2 := EncodeRaw_eq_Encode q hq
  rw [← hv, ← ht, ← hb] at e2
  rw [e1, e2]
  exact ⟨rfl, rfl, rfl, rfl, rfl⟩

set_option maxRecDepth 100000 in
/-- C12 at two different values with the same three fields: version 1, type 1
and the one-byte payload 72, once as the middle of the array `9, 72, 7` with
capacity 2, once as a whole one-byte array. Both are encoded as the frame of
these three fields. -/
theorem Encode_deterministic_witness :
    (⟨1, 1, ⟨[9, 72, 7], 1, 1, 2⟩⟩ : RawDataPacket) ≠ ⟨1, 1, ⟨[72], 0, 1, 1⟩⟩ ∧
      EncodeRaw ⟨1, 1, ⟨[9, 72, 7], 1, 1, 2⟩⟩ = EncodeRaw ⟨1, 1, ⟨[72], 0, 1, 1⟩⟩ ∧
      EncodeRaw ⟨1, 1, ⟨[72], 0, 1, 1⟩⟩ = Encode ⟨1, 1, [72]⟩ :=
  ⟨by decide,
    (Encode_deterministic ⟨1, 1, ⟨[9, 72, 7], 1, 1, 2⟩⟩ ⟨1, 1, ⟨[72], 0, 1, 1⟩⟩
      (by decide) (by decide) (by decide) (by decide) (by decide)).1,
    (Encode_deterministic ⟨1, 1, ⟨[9, 72, 7], 1, 1, 2⟩⟩ ⟨1, 1, ⟨[72], 0, 1, 1⟩⟩
      (by decide) (by decide) (by decide) (by decide) (by decide)).2.2.2.2⟩

set_option maxRecDepth 100000 in
/-- C13 (checksum coverage on decode), evaluated on the code: the nine bytes
`1 1 0 0 152 58 210 78 0` declare length 0, hold at least `L + 8` bytes, and
the value stored in `data[4 .. 8)` equals the CRC-32 of `data[0 .. 4)`, yet
`Decode` returns no frame and the error "checksum mismatch": it recomputes
the CRC-32 over `data[0 .. 5)`. -/
theorem Decode_checksum_range_mismatch :
    declaredLength [1, 1, 0, 0, 152, 58, 210, 78, 0] = 0 ∧
      declaredLength [1, 1, 0, 0, 152, 58, 210, 78, 0] + 8
        ≤ ([1, 1, 0, 0, 152, 58, 210, 78, 0] : List Byte).length ∧
      Uint32 ((([1, 1, 0, 0, 152, 58, 210, 78, 0] : List Byte).drop 4).take 4)
        = ChecksumIEEE (([1, 1, 0, 0, 152, 58, 210, 78, 0] : List Byte).take 4) ∧
      Uint32 ((([1, 1, 0, 0, 152, 58, 210, 78, 0] : List Byte).drop 4).take 4)
        ≠ ChecksumIEEE (([1, 1, 0, 0, 152, 58, 210, 78, 0] : List Byte).take 5) ∧
      Decode [1, 1, 0, 0, 152, 58, 210, 78, 0]
        = .ret (none, some (Error.New "checksum mismatch")) := by
  refine ⟨by decide, by decide, by decide, by decide, by decide⟩

/-- C14 (silent length wrap). For every frame, whatever the payload length
`n`, `Encode` returns no error; bytes 2 and 3 of its output are the big-endian
encoding of `n mod 65536`, and all `n` payload bytes follow them. The length
field equals the payload length exactly when `n <= 65535`. -/
theorem Encode_length_wrap (p : DataPacket) :
    ∃ bs, Encode p = (some bs, none) ∧
      bs[2]? = some (byte (p.Payload.length % 65536 / 256)) ∧
      bs[3]? = some (byte (p.Payload.length % 65536 % 256)) ∧
      declaredLength bs = p.Payload.length % 65536 ∧
      (bs.drop 4).take p.Payload.length = p.Payload ∧
      (declaredLength bs = p.Payload.length ↔ p.Payload.length ≤ 65535) := by
  refine ⟨_, Encode_eq p, ?_, ?_, ?_, ?_, ?_⟩
  · simp only [PutUint16, byte_shiftRight_eight, List.cons_append, List.nil_append]
    simp
  · rw [byte_mod]
    simp [PutUint16]
  · simp only [PutUint16, List.cons_append, List.nil_append, declaredLength,
      List.getD_cons_zero, List.getD_cons_succ, byte_val, Nat.shiftRight_eq_div_pow]
    omega
  · simp only [PutUint16, List.cons_append, List.nil_append, List.drop_succ_cons,
      List.drop_zero, List.take_left]
  · simp only [PutUint16, List.cons_append, List.nil_append, declaredLength,
      List.getD_cons_zero, List.getD_cons_succ, byte_val, Nat.shiftRight_eq_div_pow]
    omega

/-- C16 (actual acceptance condition of `Decode`). For every input of at least
4 bytes with declared length `L = 256 * data[2] + data[3]` and
`len(data) >= L + 8`, `Decode` succeeds if and only if the big-endian 32-bit
value stored in `data[4+L .. 8+L)` equals the CRC-32 of
`data[0 .. len(data)-4)`; it then returns the frame read from the wire
positions, and otherwise it returns the error "checksum mismatch". For an
input of exactly `L + 8` bytes the checksummed range is `data[0 .. 4+L)`; for a
longer input it is that range followed by the next `len(data) - 8 - L` bytes,
which start with the stored checksum. -/
theorem Decode_accepts_iff (data : List Byte) (h4 : 4 ≤ data.length)
    (h : declaredLength data + 8 ≤ data.length) :
    ((∃ p, Decode data = .ret (some p, none)) ↔
        Uint32 ((data.drop (4 + declaredLength data)).take 4)
          = ChecksumIEEE (data.take (data.length - 4))) ∧
      (Uint32 ((data.drop (4 + declaredLength data)).take 4)
          = ChecksumIEEE (data.take (data.length - 4)) →
        Decode data = .ret (some ⟨data.getD 0 0, data.getD 1 0,
          (data.drop 4).take (declaredLength data)⟩, none)) ∧
      (Uint32 ((data.drop (4 + declaredLength data)).take 4)
          ≠ ChecksumIEEE (data.take (data.length - 4)) →
        Decode data = .ret (none, some (Error.New "checksum mismatch"))) ∧
      (data.length = declaredLength data + 8 →
        data.take (data.length - 4) = data.take (4 + declaredLength data)) ∧
      data.take (data.length - 4) = data.take (4 + declaredLength data) ++
        (data.drop (4 + declaredLength data)).take (data.length - 8 - declaredLength data) := by
  have hd := Decode_of_long data h4 h
  refine ⟨?_, ?_, ?_, ?_, ?_⟩
  · constructor
    · rintro ⟨p, hp⟩
      by_contra hne
      rw [hd, if_pos hne] at hp
      simp at hp
    · intro heq
      rw [hd, if_neg (not_not.mpr heq)]
      exact ⟨_, rfl⟩
  · intro heq
    rw [hd, if_neg (not_not.mpr heq)]
  · intro hne
    rw [hd, if_pos hne]
  · intro hl
    congr 1
    omega
  · rw [← List.take_add]
    congr 1
    omega

set_option maxRecDepth 100000 in
/-- C16 at a twelve-byte input: the frame of version 1, type 1 and empty
payload, followed by four more bytes. The stored checksum is that of the
first four bytes, the recomputed one covers the first eight. -/
theorem Decode_accepts_iff_witness :
    Decode [1, 1, 0, 0, 152, 58, 210, 78, 9, 9, 9, 9]
      = .ret (none, some (Error.New "checksum mismatch")) :=
  (Decode_accepts_iff [1, 1, 0, 0, 152, 58, 210, 78, 9, 9, 9, 9] (by decide)
    (by decide)).2.2.1 (by decide)

/-- C18 (canonical encoding). For every input on which `Decode` succeeds and
whose length is exactly `L + 8` with `L = 256 * data[2] + data[3]`, `Encode`
of the decoded frame returns no error and exactly the input bytes. -/
theorem Encode_Decode_canonical (data : List Byte) (p : DataPacket)
    (hd : Decode data = .ret (some p, none))
    (hl : data.length = declaredLength data + 8) :
    Encode p = (some data, none) := by
  have h4 : 4 ≤ data.length := by omega
  obtain ⟨v, t, a, b, rest, rfl⟩ := list_length_ge_four data h4
  have hL : declaredLength (v :: t :: a :: b :: rest) = Uint16 [a, b] := by
    simp only [declaredLength, List.getD_cons_zero, List.getD_cons_succ, Uint16_eq]
    rw [Nat.mul_comm]
  rw [hL] at hl
  simp only [List.length_cons] at hl
  have hrl : rest.length = Uint16 [a, b] + 4 := by omega
  rw [Decode_complete v t a b rest (by omega)] at hd
  split at hd
  · simp at hd
  rename_i hcrc
  have hcrc := not_not.mp hcrc
  have hp : p = ⟨v, t, rest.take (Uint16 [a, b])⟩ := by
    simp only [Run.ret.injEq, Prod.mk.injEq, Option.some.injEq, and_true] at hd
    exact hd.symm
  subst hp
  have hcs : ((rest.drop (Uint16 [a, b])).take 4) = rest.drop (Uint16 [a, b]) := by
    apply List.take_of_length_le
    rw [List.length_drop]; omega
  obtain ⟨c0, c1, c2, c3, hc⟩ := list_length_four (rest.drop (Uint16 [a, b]))
    (by rw [List.length_drop]; omega)
  have hlen : (rest.take (Uint16 [a, b])).length = Uint16 [a, b] := by
    rw [List.length_take]; omega
  have hbody : (v :: t :: a :: b :: rest).take rest.length
      = v :: t :: a :: b :: rest.take (Uint16 [a, b]) := by
    rw [hrl]
    rfl
  rw [hcs, hc, hbody] at hcrc
  rw [Encode_eq]
  simp only [hlen, Nat.mod_eq_of_lt (Uint16_lt a b), PutUint16_Uint16, List.cons_append,
    List.nil_append]
  rw [← hcrc, PutUint32_Uint32, ← hc]
  simp only [List.cons_append, List.take_append_drop]

set_option maxRecDepth 100000 in
/-- C18 at the thirteen bytes that encode version 1, type 1, payload
"Hello". -/
theorem Encode_Decode_canonical_witness :
    Encode ⟨1, 1, [72, 101, 108, 108, 111]⟩
      = (some [1, 1, 0, 5, 72, 101, 108, 108, 111, 92, 230, 239, 95], none) :=
  Encode_Decode_canonical [1, 1, 0, 5, 72, 101, 108, 108, 111, 92, 230, 239, 95]
    ⟨1, 1, [72, 101, 108, 108, 111]⟩ (by decide) (by decide)

/-- C11 (checksum sensitivity), counterexample: in the encoding of version 1,
type 1 and empty payload, inverting bit 0 of byte 3 (the low byte of the
length field) makes the header declare one payload byte; `Decode` then finds
only three bytes left for the checksum and returns `io.ErrUnexpectedEOF`, not
the checksum-mismatch error, without having read any received checksum. -/
theorem Decode_bit_flip_counterexample :
    Encode ⟨1, 1, []⟩ = (some [1, 1, 0, 0, 152, 58, 210, 78], none) ∧
      flipBit [1, 1, 0, 0, 152, 58, 210, 78] 3 0 = [1, 1, 0, 1, 152, 58, 210, 78] ∧
      Decode (flipBit [1, 1, 0, 0, 152, 58, 210, 78] 3 0)
        = .ret (none, some Error.ErrUnexpectedEOF) ∧
      Error.ErrUnexpectedEOF ≠ Error.New "checksum mismatch" := by
  refine ⟨by decide, by decide, by decide, by decide⟩

/-- C11 (checksum sensitivity), amended. For every frame with payload length
`n <= 65535` and every bit position in the first `4 + n` bytes of its
encoding, `Decode` of the encoding with that bit inverted either returns the
checksum-mismatch error, or, when the bit lies in the length field and raises
the declared length above `n`, returns an end-of-input error; the only other
outcome is that the four bytes read as received checksum equal the recomputed
CRC-32, in which case `Decode` succeeds. -/
theorem Decode_bit_flip_outcome (p : DataPacket) (h : p.Payload.length ≤ 65535) :
    ∃ bs, Encode p = (some bs, none) ∧
      ∀ i k : Nat, i < 4 + p.Payload.length → k < 8 →
        Decode (flipBit bs i k) = .ret (none, some (Error.New "checksum mismatch")) ∨
        ((i = 2 ∨ i = 3) ∧ p.Payload.length < declaredLength (flipBit bs i k) ∧
          ∃ e, Decode (flipBit bs i k) = .ret (none, some e) ∧ e.isEndOfInput = true) ∨
        (declaredLength (flipBit bs i k) + 8 ≤ (flipBit bs i k).length ∧
          Uint32 (((flipBit bs i k).drop (4 + declaredLength (flipBit bs i k))).take 4)
            = ChecksumIEEE ((flipBit bs i k).take ((flipBit bs i k).length - 4)) ∧
          ∃ q, Decode (flipBit bs i k) = .ret (some q, none)) := by
  refine ⟨_, Encode_eq p, ?_⟩
  intro i k hi _
  have hm : p.Payload.length % 2 ^ 16 = p.Payload.length := Nat.mod_eq_of_lt (by omega)
  rw [hm]
  generalize hbs : (p.Version :: p.Type_ :: (PutUint16 p.Payload.length ++ p.Payload)) ++
    PutUint32 (ChecksumIEEE
      (p.Version :: p.Type_ :: (PutUint16 p.Payload.length ++ p.Payload))) = bs
  have hlen : bs.length = p.Payload.length + 8 := by
    rw [← hbs]
    simp only [List.length_append, List.length_cons, PutUint16, PutUint32, List.length_nil]
    omega
  have hdl : declaredLength bs = p.Payload.length := by
    rw [← hbs, List.cons_append, List.cons_append, List.append_assoc]
    exact declaredLength_encoding _ _ _ _ (by omega)
  have hfl : (flipBit bs i k).length = p.Payload.length + 8 := by
    rw [flipBit, List.length_set, hlen]
  by_cases hL : declaredLength (flipBit bs i k) + 8 ≤ (flipBit bs i k).length
  · have hd := Decode_of_long (flipBit bs i k) (by omega) hL
    by_cases hc : Uint32 (((flipBit bs i k).drop (4 + declaredLength (flipBit bs i k))).take 4)
        = ChecksumIEEE ((flipBit bs i k).take ((flipBit bs i k).length - 4))
    · right; right
      refine ⟨hL, hc, ?_⟩
      rw [hd, if_neg (not_not.mpr hc)]
      exact ⟨_, rfl⟩
    · left
      rw [hd, if_pos hc]
  · right; left
    have hlt : p.Payload.length < declaredLength (flipBit bs i k) := by omega
    refine ⟨?_, hlt, Decode_of_short _ (by omega)⟩
    by_contra hcon
    have h2 : i ≠ 2 := fun e => hcon (Or.inl e)
    have h3 : i ≠ 3 := fun e => hcon (Or.inr e)
    rw [flipBit, declaredLength_set _ _ _ h2 h3, hdl] at hlt
    omega

/-- C11 amended, at the frame of version 1, type 1 and empty payload. -/
theorem Decode_bit_flip_outcome_witness :
    ∃ bs, Encode ⟨1, 1, []⟩ = (some bs, none) ∧
      ∀ i k : Nat, i < 4 + ([] : List Byte).length → k < 8 →
        Decode (flipBit bs i k) = .ret (none, some (Error.New "checksum mismatch")) ∨
        ((i = 2 ∨ i = 3) ∧ ([] : List Byte).length < declaredLength (flipBit bs i k) ∧
          ∃ e, Decode (flipBit bs i k) = .ret (none, some e) ∧ e.isEndOfInput = true) ∨
        (declaredLength (flipBit bs i k) + 8 ≤ (flipBit bs i k).length ∧
          Uint32 (((flipBit bs i k).drop (4 + declaredLength (flipBit bs i k))).take 4)
            = ChecksumIEEE ((flipBit bs i k).take ((flipBit bs i k).length - 4)) ∧
          ∃ q, Decode (flipBit bs i k) = .ret (some q, none)) :=
  Decode_bit_flip_outcome ⟨1, 1, []⟩ (by decide)

/-- C15 (oversized payload on decode), counterexample: of the two frames with
version 1, type 1 and a payload of 65535 zero bytes followed by one byte 0 or
1, at least one has an encoding on which `Decode` reports the checksum-mismatch
error. Both declare length 0 and offer four zero payload bytes as received
checksum, while their recomputed CRC-32 values differ. -/
theorem Decode_Encode_oversized_counterexample :
    (∃ bs, Encode ⟨1, 1, List.replicate 65535 0 ++ [0]⟩ = (some bs, none) ∧
        Decode bs = .ret (none, some (Error.New "checksum mismatch"))) ∨
      (∃ bs, Encode ⟨1, 1, List.replicate 65535 0 ++ [1]⟩ = (some bs, none) ∧
        Decode bs = .ret (none, some (Error.New "checksum mismatch"))) :=
  Decode_wrapped_pair 1 1 (List.replicate 65535 0) (List.length_replicate _ _) rfl

/-- C15 (oversized payload on decode), amended. For every frame whose payload
has `n > 65535` bytes, `Encode` returns no error, and `Decode` of its output
reads the declared length `L = n mod 65536`, takes the four payload bytes at
offsets `L .. L+4` as the received checksum and compares them with the CRC-32
of the header and the whole payload: it returns the checksum-mismatch error
unless the two are equal, in which case it returns a frame whose `Payload` is
the first `L` bytes of the original payload. It never returns the original
frame. -/
theorem Decode_Encode_oversized (p : DataPacket) (h : 65535 < p.Payload.length) :
    ∃ bs, Encode p = (some bs, none) ∧
      Decode bs =
        (if Uint32 ((p.Payload.drop (p.Payload.length % 65536)).take 4)
            ≠ ChecksumIEEE
              (p.Version :: p.Type_ ::
                (PutUint16 (p.Payload.length % 65536) ++ p.Payload)) then
          .ret (none, some (Error.New "checksum mismatch"))
        else
          .ret (some ⟨p.Version, p.Type_, p.Payload.take (p.Payload.length % 65536)⟩,
            none)) ∧
      Decode bs ≠ .ret (some p, none) := by
  have hw := Decode_wrapped p.Version p.Type_ p.Payload h
  refine ⟨_, Encode_eq p, hw, ?_⟩
  rw [hw]
  split
  · simp
  · intro hcontra
    simp only [Run.ret.injEq, Prod.mk.injEq, Option.some.injEq, and_true] at hcontra
    have hl := congrArg (fun q => q.Payload.length) hcontra
    simp only [List.length_take] at hl
    have : p.Payload.length % 2 ^ 16 < 2 ^ 16 := Nat.mod_lt _ (by decide)
    omega

/-- C15 amended, at version 1, type 1 and a payload of 65536 zero bytes. -/
theorem Decode_Encode_oversized_witness :
    ∃ bs, Encode ⟨1, 1, List.replicate 65536 0⟩ = (some bs, none) ∧
      Decode bs ≠ .ret (some ⟨1, 1, List.replicate 65536 0⟩, none) := by
  obtain ⟨bs, hbs, -, hne⟩ := Decode_Encode_oversized ⟨1, 1, List.replicate 65536 0⟩
    (Nat.lt_of_lt_of_eq (by decide : 65535 < 65536) (List.length_replicate _ _).symm)
  exact ⟨bs, hbs, hne⟩

/-- C17 (single-bit errors outside the length field are always detected). For
every frame with a payload of at most 65535 bytes and every bit position
inside byte 0 (version), byte 1 (type) or a payload byte of its encoding,
`Decode` of the encoding with that one bit inverted returns no frame and the
error "checksum mismatch": the recomputed CRC-32 cannot equal the stored
one. -/
theorem Decode_single_bit_error_detected (p : DataPacket) (h : p.Payload.length ≤ 65535) :
    ∃ bs, Encode p = (some bs, none) ∧
      ∀ i k : Nat, k < 8 → (i = 0 ∨ i = 1 ∨ (4 ≤ i ∧ i < 4 + p.Payload.length)) →
        Decode (flipBit bs i k) = .ret (none, some (Error.New "checksum mismatch")) := by
  refine ⟨_, Encode_eq p, ?_⟩
  intro i k hk hi
  have hm : p.Payload.length % 2 ^ 16 = p.Payload.length := Nat.mod_eq_of_lt (by omega)
  have hn : p.Payload.length < 2 ^ 16 := by omega
  rw [hm]
  rcases hi with rfl | rfl | ⟨h4, hi⟩
  · have e : flipBit ((p.Version :: p.Type_ :: (PutUint16 p.Payload.length ++ p.Payload)) ++
        PutUint32 (ChecksumIEEE
          (p.Version :: p.Type_ :: (PutUint16 p.Payload.length ++ p.Payload)))) 0 k
        = (byte (p.Version.val ^^^ 2 ^ k) :: p.Type_ ::
            (PutUint16 p.Payload.length ++ p.Payload)) ++
          PutUint32 (ChecksumIEEE
            (p.Version :: p.Type_ :: (PutUint16 p.Payload.length ++ p.Payload))) := rfl
    rw [e]
    exact Decode_modified_body _ _ _ _ _ _ rfl hn
      (ChecksumIEEE_append_cons_ne [] _ _ _ (byte_xor_two_pow_ne _ k hk))
  · have e : flipBit ((p.Version :: p.Type_ :: (PutUint16 p.Payload.length ++ p.Payload)) ++
        PutUint32 (ChecksumIEEE
          (p.Version :: p.Type_ :: (PutUint16 p.Payload.length ++ p.Payload)))) 1 k
        = (p.Version :: byte (p.Type_.val ^^^ 2 ^ k) ::
            (PutUint16 p.Payload.length ++ p.Payload)) ++
          PutUint32 (ChecksumIEEE
            (p.Version :: p.Type_ :: (PutUint16 p.Payload.length ++ p.Payload))) := rfl
    rw [e]
    exact Decode_modified_body _ _ _ _ _ _ rfl hn
      (ChecksumIEEE_append_cons_ne [p.Version] _ _ _ (byte_xor_two_pow_ne _ k hk))
  · obtain ⟨j, rfl⟩ : ∃ j, i = j + 4 := ⟨i - 4, by omega⟩
    have hj : j < p.Payload.length := by omega
    have hg : ∀ cs : List Byte, (p.Payload ++ cs).getD j 0 = p.Payload.getD j 0 := by
      intro cs
      simp only [List.getD_eq_getElem?_getD, List.getElem?_append_left hj]
    have e : flipBit ((p.Version :: p.Type_ :: (PutUint16 p.Payload.length ++ p.Payload)) ++
        PutUint32 (ChecksumIEEE
          (p.Version :: p.Type_ :: (PutUint16 p.Payload.length ++ p.Payload)))) (j + 4) k
        = (p.Version :: p.Type_ :: (PutUint16 p.Payload.length ++
            p.Payload.set j (byte ((p.Payload.getD j 0).val ^^^ 2 ^ k)))) ++
          PutUint32 (ChecksumIEEE
            (p.Version :: p.Type_ :: (PutUint16 p.Payload.length ++ p.Payload))) := by
      simp only [flipBit, PutUint16, List.cons_append, List.nil_append, List.set_cons_succ,
        List.getD_cons_succ, hg, List.set_append_left _ _ hj]
    rw [e]
    refine Decode_modified_body _ _ _ _ _ _ (List.length_set _ _ _) hn ?_
    have hs := ChecksumIEEE_set_ne
      (p.Version :: p.Type_ :: (PutUint16 p.Payload.length ++ p.Payload)) (j + 4)
      (by simp only [List.length_cons, List.length_append, PutUint16, List.length_nil]; omega)
      (byte ((p.Payload.getD j 0).val ^^^ 2 ^ k))
      (by
        simp only [PutUint16, List.cons_append, List.nil_append, List.getD_cons_succ]
        exact byte_xor_two_pow_ne _ k hk)
    simpa only [PutUint16, List.cons_append, List.nil_append, List.set_cons_succ] using hs

set_option maxRecDepth 100000 in
/-- C17 at the encoding of version 1, type 1, payload "Hello", with bit 0 of
the first payload byte inverted (72 becomes 73). -/
theorem Decode_single_bit_error_detected_witness :
    Encode ⟨1, 1, [72, 101, 108, 108, 111]⟩
        = (some [1, 1, 0, 5, 72, 101, 108, 108, 111, 92, 230, 239, 95], none) ∧
      Decode [1, 1, 0, 5, 73, 101, 108, 108, 111, 92, 230, 239, 95]
        = .ret (none, some (Error.New "checksum mismatch")) := by
  obtain ⟨bs, hbs, hall⟩ :=
    Decode_single_bit_error_detected ⟨1, 1, [72, 101, 108, 108, 111]⟩ (by decide)
  have e : Encode ⟨1, 1, [72, 101, 108, 108, 111]⟩
      = (some [1, 1, 0, 5, 72, 101, 108, 108, 111, 92, 230, 239, 95], none) := by decide
  rw [e] at hbs
  cases hbs
  exact ⟨e, hall 4 0 (by decide) (Or.inr (Or.inr ⟨by decide, by decide⟩))⟩

end packet
